import Mathlib

/-!
Verification of the KnightDAG repository.

The development shallowly embeds the two executable parts of the source:

* `migrations/20250528000000_initial.sql` — the `nodes` and `edges`
  tables with their PRIMARY KEY / FOREIGN KEY (ON DELETE CASCADE)
  constraints, and the PL/pgSQL function `check_dag_cycle`, whose
  recursive CTE `search_graph` is modelled iteration by iteration
  (each level is one pass of the CTE's working table).
* `frontend/src/types/dag.ts` and
  `frontend/src/components/DagVisualization.tsx` — the `Block`,
  `GraphNode`, `GraphLink`, `GraphData` types, `convertToGraphData`,
  `getNodeColor` and `getNodeSize`.

SQL `TEXT` becomes `String`; `DOUBLE PRECISION` and TypeScript `number`
become `ℚ`; `JSONB` payloads are opaque `String`s.  The
`created_at`/`description` columns play no role in any claim and are
omitted.
-/

namespace KnightDag

/-- A row of the `edges` table: `from_node TEXT`, `to_node TEXT`,
`weight DOUBLE PRECISION`, primary key `(from_node, to_node)`. -/
structure Edge where
  from_node : String
  to_node : String
  weight : ℚ
deriving DecidableEq

/-- A row of the `nodes` table: `id TEXT PRIMARY KEY`, `data JSONB`
(kept as an opaque string). -/
structure NodeRow where
  id : String
  data : String
deriving DecidableEq

/-- The joint state of the two persisted relations. -/
structure DBState where
  nodes : List NodeRow
  edges : List Edge
deriving DecidableEq

/-- The empty database, the state right after the migration runs. -/
def emptyDB : DBState := ⟨[], []⟩

/-- `DELETE FROM nodes WHERE id = x`: the row (if any) disappears and,
by `ON DELETE CASCADE` on both foreign keys of `edges`, so does every
edge incident to `x`. -/
def delete_node (s : DBState) (x : String) : DBState :=
  ⟨s.nodes.filter fun n => !(n.id == x),
   s.edges.filter fun e => !(e.from_node == x || e.to_node == x)⟩

/-- The write statements the persisted schema accepts on the two
relations.  The migration installs no trigger, so the only integrity
checks are the primary keys and the two foreign keys of `edges`. -/
inductive DbWrite where
  | insertNode (id data : String)
  | insertEdge (from_node to_node : String) (weight : ℚ)
  | deleteNode (id : String)
  | deleteEdge (from_node to_node : String)
deriving DecidableEq

/-- One write, checked exactly against the constraints the schema
declares: `nodes.id` is a primary key; an edge insert needs both
endpoints present (foreign keys) and a fresh `(from_node, to_node)`
pair (primary key); deletes always succeed, node deletes cascade. -/
def applyWrite (s : DBState) : DbWrite → Option DBState
  | .insertNode i d =>
      if s.nodes.any fun n => n.id == i then none
      else some ⟨s.nodes ++ [⟨i, d⟩], s.edges⟩
  | .insertEdge f t w =>
      if (s.nodes.any fun n => n.id == f) &&
         (s.nodes.any fun n => n.id == t) &&
         !(s.edges.any fun e => e.from_node == f && e.to_node == t)
      then some ⟨s.nodes, s.edges ++ [⟨f, t, w⟩]⟩
      else none
  | .deleteNode i => some (delete_node s i)
  | .deleteEdge f t =>
      some ⟨s.nodes, s.edges.filter fun e => !(e.from_node == f && e.to_node == t)⟩

/-- A sequence of schema-admitted writes, failing if any single write
is rejected. -/
def applyWrites (s : DBState) (ws : List DbWrite) : Option DBState :=
  ws.foldlM applyWrite s

/-- The edge relation contains a directed edge from `a` to `b`. -/
def hasEdge (edges : List Edge) (a b : String) : Prop :=
  ∃ e ∈ edges, e.from_node = a ∧ e.to_node = b

/-- A directed path of length at least one over the edge relation. -/
inductive IsPath (edges : List Edge) : String → String → Prop
  | single {a b : String} : hasEdge edges a b → IsPath edges a b
  | cons {a b c : String} : hasEdge edges a b → IsPath edges b c → IsPath edges a c

/-- The edge relation contains no directed cycle. -/
def Acyclic (edges : List Edge) : Prop := ∀ x, ¬ IsPath edges x x

/-- A row of the recursive CTE `search_graph(from_node, to_node, path,
cycle)` inside `check_dag_cycle`. -/
structure SGRow where
  from_node : String
  to_node : String
  path : List String
  cycle : Bool
deriving DecidableEq

/-- The non-recursive term of the CTE:
`SELECT e.from_node, e.to_node, ARRAY[e.from_node], false FROM edges e
WHERE e.from_node = p_to_node`. -/
def sgBase (edges : List Edge) (p_to_node : String) : List SGRow :=
  (edges.filter fun e => e.from_node == p_to_node).map fun e =>
    ⟨e.from_node, e.to_node, [e.from_node], false⟩

/-- The recursive term of the CTE, applied to one working table:
`SELECT e.from_node, e.to_node, path || e.from_node,
e.to_node = ANY(path) FROM edges e INNER JOIN search_graph sg ON
e.from_node = sg.to_node WHERE NOT cycle`. -/
def sgStep (edges : List Edge) (rows : List SGRow) : List SGRow :=
  rows.flatMap fun sg =>
    if sg.cycle then []
    else (edges.filter fun e => e.from_node == sg.to_node).map fun e =>
      ⟨e.from_node, e.to_node, sg.path ++ [e.from_node], decide (e.to_node ∈ sg.path)⟩

/-- The working table of the CTE after `n` recursive iterations. -/
def sgLevel (edges : List Edge) (p_to_node : String) : Nat → List SGRow
  | 0 => sgBase edges p_to_node
  | n + 1 => sgStep edges (sgLevel edges p_to_node n)

/-- All rows the CTE ever produces.  PostgreSQL iterates until a
working table comes back empty; `sgLevel_eq_nil_of_le` below proves
every level from `2 * edges.length` on is empty, so truncating the
union there loses no row. -/
def searchGraph (edges : List Edge) (p_to_node : String) : List SGRow :=
  (List.range (2 * edges.length)).flatMap (sgLevel edges p_to_node)

/-- `check_dag_cycle(p_from_node, p_to_node)`:
`EXISTS (SELECT 1 FROM search_graph WHERE cycle OR to_node = p_from_node)`. -/
def check_dag_cycle (edges : List Edge) (p_from_node p_to_node : String) : Bool :=
  (searchGraph edges p_to_node).any fun r => r.cycle || r.to_node == p_from_node

/-- The Graph Store error taxonomy of spec §7. -/
inductive GraphError where
  | DuplicateId
  | UnknownParent
  | CycleDetected
deriving DecidableEq

/-- Modelled from the spec: the Rust Graph Store that wraps edge
insertion is not under `src/` (only the migration is), so its contract
from §4.1 is taken literally — to insert the parent edge `p → c` it
runs the persisted `check_dag_cycle(p, c)` first and rejects with
`CycleDetected` when the check reports a cycle, leaving the relation
untouched; otherwise the row commits. -/
def insert_edge (edges : List Edge) (p c : String) (w : ℚ) :
    Except GraphError (List Edge) :=
  if check_dag_cycle edges p c then .error .CycleDetected
  else .ok (edges ++ [⟨p, c, w⟩])

/-- `Block` from `frontend/src/types/dag.ts` (note the `hash` field,
which §3 of the spec does not list). -/
structure Block where
  id : String
  hash : String
  parents : List String
  timestamp : String
  height : ℚ
  confidence : ℚ
  in_k_cluster : Bool
  network_delay : ℚ
deriving DecidableEq

/-- `GraphNode` from `frontend/src/types/dag.ts`. -/
structure GraphNode where
  id : String
  height : ℚ
  confidence : ℚ
  in_k_cluster : Bool
  network_delay : ℚ
deriving DecidableEq

/-- `GraphLink` from `frontend/src/types/dag.ts`. -/
structure GraphLink where
  source : String
  target : String
deriving DecidableEq

/-- `GraphData` from `frontend/src/types/dag.ts`. -/
structure GraphData where
  nodes : List GraphNode
  links : List GraphLink
deriving DecidableEq

/-- `dagApi.convertToGraphData` from `frontend/src/api` code in
`types/dag.ts`'s companion module: one graph node per block by `map`,
and for each block one link per parent, `source` the parent id and
`target` the block id, in the same traversal order as the nested
`forEach`. -/
def convertToGraphData (blocks : List Block) : GraphData :=
  ⟨blocks.map fun b => ⟨b.id, b.height, b.confidence, b.in_k_cluster, b.network_delay⟩,
   blocks.flatMap fun b => b.parents.map fun p => ⟨p, b.id⟩⟩

/-- `getNodeColor` from `DagVisualization.tsx`: green for k-cluster
members, blue (the "confirmed" colour) when `confidence >= 80`, orange
otherwise. -/
def getNodeColor (n : GraphNode) : String :=
  if n.in_k_cluster then "#00ff00"
  else if 80 ≤ n.confidence then "#0088ff"
  else "#ff8800"

/-- `getNodeSize` from `DagVisualization.tsx`: `10 + confidence / 10`. -/
def getNodeSize (n : GraphNode) : ℚ :=
  10 + n.confidence / 10

/-- Structural facts true of every row the CTE produces: the path
starts at the searched-from node, the path followed by `to_node` is a
walk along existing edges, the `cycle` flag records whether `to_node`
revisits the path minus its last entry, each node occurs at most twice
on the path, and path entries are sources of edges. -/
def RowInv (edges : List Edge) (c : String) (r : SGRow) : Prop :=
  r.path.head? = some c ∧
  List.Chain' (hasEdge edges) (r.path ++ [r.to_node]) ∧
  r.cycle = decide (r.to_node ∈ r.path.dropLast) ∧
  (∀ x, r.path.count x ≤ 2) ∧
  (∀ x ∈ r.path, x ∈ edges.map Edge.from_node)

theorem mem_sgBase {edges : List Edge} {c : String} {r : SGRow} :
    r ∈ sgBase edges c ↔
      ∃ e ∈ edges, e.from_node = c ∧
        r = ⟨e.from_node, e.to_node, [e.from_node], false⟩ := by
  simp only [sgBase, List.mem_map, List.mem_filter, beq_iff_eq]
  constructor
  · rintro ⟨e, ⟨he, hfe⟩, hr⟩
    exact ⟨e, he, hfe, hr.symm⟩
  · rintro ⟨e, he, hfe, hr⟩
    exact ⟨e, ⟨he, hfe⟩, hr.symm⟩

theorem mem_sgStep {edges : List Edge} {rows : List SGRow} {r : SGRow} :
    r ∈ sgStep edges rows ↔
      ∃ sg ∈ rows, sg.cycle = false ∧
        ∃ e ∈ edges, e.from_node = sg.to_node ∧
          r = ⟨e.from_node, e.to_node, sg.path ++ [e.from_node],
                decide (e.to_node ∈ sg.path)⟩ := by
  simp only [sgStep, List.mem_flatMap]
  constructor
  · rintro ⟨sg, hsg, hr⟩
    rcases hcyc : sg.cycle with _ | _
    · rw [hcyc] at hr
      simp only [if_neg Bool.false_ne_true, List.mem_map, List.mem_filter,
        beq_iff_eq] at hr
      rcases hr with ⟨e, ⟨he, hfe⟩, hr⟩
      exact ⟨sg, hsg, hcyc, e, he, hfe, hr.symm⟩
    · rw [hcyc] at hr
      simp at hr
  · rintro ⟨sg, hsg, hcyc, e, he, hfe, hr⟩
    refine ⟨sg, hsg, ?_⟩
    rw [hcyc]
    simp only [if_neg Bool.false_ne_true, List.mem_map, List.mem_filter,
      beq_iff_eq]
    exact ⟨e, ⟨he, hfe⟩, hr.symm⟩

theorem sgLevel_length {edges : List Edge} {c : String} :
    ∀ {n : Nat} {r : SGRow}, r ∈ sgLevel edges c n → r.path.length = n + 1 := by
  intro n
  induction n with
  | zero =>
    intro r hr
    rcases mem_sgBase.mp hr with ⟨e, -, -, rfl⟩
    rfl
  | succ n ih =>
    intro r hr
    rcases mem_sgStep.mp hr with ⟨sg, hsg, -, e, -, -, rfl⟩
    simp [ih hsg]

theorem sgLevel_inv {edges : List Edge} {c : String} :
    ∀ {n : Nat} {r : SGRow}, r ∈ sgLevel edges c n → RowInv edges c r := by
  intro n
  induction n with
  | zero =>
    intro r hr
    rcases mem_sgBase.mp hr with ⟨e, he, hfe, rfl⟩
    refine ⟨by simp [hfe], ?_, by simp, ?_, ?_⟩
    · exact List.chain'_cons.mpr ⟨⟨e, he, rfl, rfl⟩, List.chain'_singleton _⟩
    · intro x
      show List.count x [e.from_node] ≤ 2
      have h := List.count_le_length x [e.from_node]
      simp only [List.length_singleton] at h
      omega
    · intro x hx
      rcases List.mem_singleton.mp hx with rfl
      exact List.mem_map.mpr ⟨e, he, rfl⟩
  | succ n ih =>
    intro r hr
    rcases mem_sgStep.mp hr with ⟨sg, hsg, hcyc, e, he, hfe, rfl⟩
    obtain ⟨hhead, hchain, hflag, hcount, hmem⟩ := ih hsg
    have hne : sg.path ≠ [] := by
      intro h
      rw [h] at hhead
      exact Option.noConfusion hhead
    have hnotmem : sg.to_node ∉ sg.path.dropLast := by
      intro hmem'
      rw [hflag] at hcyc
      exact absurd (decide_eq_true hmem') (by rw [hcyc]; exact Bool.false_ne_true)
    refine ⟨?_, ?_, by simp [List.dropLast_concat], ?_, ?_⟩
    · rcases hpath : sg.path with _ | ⟨a, q⟩
      · exact absurd hpath hne
      · rw [hpath] at hhead
        simpa using hhead
    · have heq : (sg.path ++ [e.from_node]) ++ [e.to_node] =
          (sg.path ++ [sg.to_node]) ++ [e.to_node] := by rw [hfe]
      show List.Chain' (hasEdge edges) ((sg.path ++ [e.from_node]) ++ [e.to_node])
      rw [heq]
      refine List.Chain'.append hchain (List.chain'_singleton _) ?_
      intro x hx y hy
      simp only [List.getLast?_concat, Option.mem_def, Option.some.injEq] at hx
      simp only [List.head?_cons, Option.mem_def, Option.some.injEq] at hy
      subst hx
      subst hy
      exact ⟨e, he, hfe, rfl⟩
    · intro x
      show List.count x (sg.path ++ [e.from_node]) ≤ 2
      rw [List.count_append]
      rcases eq_or_ne x e.from_node with hxe | hxe
      · have h1 : List.count x sg.path ≤ 1 := by
          conv_lhs => rw [← List.dropLast_append_getLast hne]
          rw [List.count_append]
          have h0 : List.count x sg.path.dropLast = 0 := by
            apply List.count_eq_zero.mpr
            rw [hxe, hfe]
            exact hnotmem
          have h2 := List.count_le_length x [sg.path.getLast hne]
          simp only [List.length_singleton] at h2
          omega
        have h2 := List.count_le_length x [e.from_node]
        simp only [List.length_singleton] at h2
        omega
      · have h2 : List.count x [e.from_node] = 0 :=
          List.count_eq_zero.mpr (by simpa using hxe)
        have h3 := hcount x
        omega
    · intro x hx
      rcases List.mem_append.mp hx with hx | hx
      · exact hmem x hx
      · rcases List.mem_singleton.mp hx with rfl
        exact List.mem_map.mpr ⟨e, he, rfl⟩

theorem length_le_two_mul {L S : List String} (hsub : ∀ x ∈ L, x ∈ S)
    (hcnt : ∀ x, List.count x L ≤ 2) : L.length ≤ 2 * S.length := by
  have hcard : (Multiset.ofList L).card = L.length := by simp
  have hsum : ∑ a ∈ S.toFinset, (Multiset.ofList L).count a =
      (Multiset.ofList L).card := by
    apply Multiset.sum_count_eq_card
    intro a ha
    exact List.mem_toFinset.mpr (hsub a (by simpa using ha))
  have hle : ∑ a ∈ S.toFinset, (Multiset.ofList L).count a ≤
      ∑ _a ∈ S.toFinset, 2 := by
    apply Finset.sum_le_sum
    intro a _
    simpa using hcnt a
  have hconst : ∑ _a ∈ S.toFinset, 2 = 2 * S.toFinset.card := by
    rw [Finset.sum_const, smul_eq_mul, Nat.mul_comm]
  have hcard2 : S.toFinset.card ≤ S.length := by
    rw [List.card_toFinset]
    exact (List.dedup_sublist S).length_le
  omega

theorem sgLevel_bound {edges : List Edge} {c : String} {n : Nat} {r : SGRow}
    (hr : r ∈ sgLevel edges c n) : n + 1 ≤ 2 * edges.length := by
  obtain ⟨-, -, -, hcount, hmem⟩ := sgLevel_inv hr
  have h := length_le_two_mul hmem hcount
  rw [sgLevel_length hr, List.length_map] at h
  exact h

theorem sgLevel_eq_nil_of_le {edges : List Edge} {c : String} {n : Nat}
    (h : 2 * edges.length ≤ n) : sgLevel edges c n = [] := by
  rcases List.eq_nil_or_concat (sgLevel edges c n) with hnil | ⟨l, r, heq⟩
  · exact hnil
  · have hr : r ∈ sgLevel edges c n := by rw [heq]; simp
    have := sgLevel_bound hr
    omega

theorem mem_searchGraph {edges : List Edge} {c : String} {r : SGRow} :
    r ∈ searchGraph edges c ↔ ∃ n, r ∈ sgLevel edges c n := by
  simp only [searchGraph, List.mem_flatMap, List.mem_range]
  constructor
  · rintro ⟨n, -, hr⟩
    exact ⟨n, hr⟩
  · rintro ⟨n, hr⟩
    have := sgLevel_bound hr
    exact ⟨n, by omega, hr⟩

theorem chain_isPath {edges : List Edge} :
    ∀ (l : List String) (a b : String),
      List.Chain' (hasEdge edges) (a :: l ++ [b]) → IsPath edges a b := by
  intro l
  induction l with
  | nil =>
    intro a b h
    exact .single (by simpa using h)
  | cons x l' ih =>
    intro a b h
    rw [List.cons_append, List.cons_append] at h
    have h' := List.chain'_cons.mp h
    exact .cons h'.1 (ih x b (by simpa using h'.2))

theorem isPath_chain {edges : List Edge} {a b : String} (h : IsPath edges a b) :
    ∃ l, List.Chain' (hasEdge edges) (a :: l ++ [b]) := by
  induction h with
  | single hab =>
    exact ⟨[], by simpa [List.chain'_cons] using hab⟩
  | cons hab _ ih =>
    obtain ⟨l, hl⟩ := ih
    exact ⟨_ :: l, by
      rw [List.cons_append, List.cons_append]
      exact List.chain'_cons.mpr ⟨hab, by simpa using hl⟩⟩

theorem row_isPath {edges : List Edge} {c : String} {n : Nat} {r : SGRow}
    (hr : r ∈ sgLevel edges c n) : IsPath edges c r.to_node := by
  obtain ⟨hhead, hchain, -, -, -⟩ := sgLevel_inv hr
  rcases hpath : r.path with _ | ⟨a, q⟩
  · rw [hpath] at hhead
    exact Option.noConfusion hhead
  · rw [hpath] at hhead hchain
    simp only [List.head?_cons, Option.some.injEq] at hhead
    rw [← hhead]
    exact chain_isPath q a r.to_node hchain

theorem row_cycle_isPath {edges : List Edge} {c : String} {n : Nat} {r : SGRow}
    (hr : r ∈ sgLevel edges c n) (hcyc : r.cycle = true) :
    IsPath edges r.to_node r.to_node := by
  obtain ⟨hhead, hchain, hflag, -, -⟩ := sgLevel_inv hr
  have hne : r.path ≠ [] := by
    intro h
    rw [h] at hhead
    exact Option.noConfusion hhead
  have hmem : r.to_node ∈ r.path.dropLast := by
    rw [hflag] at hcyc
    exact of_decide_eq_true hcyc
  obtain ⟨u, v, huv⟩ := List.append_of_mem hmem
  have hsplit : r.path ++ [r.to_node] =
      u ++ (r.to_node :: ((v ++ [r.path.getLast hne]) ++ [r.to_node])) := by
    conv_lhs => rw [← List.dropLast_append_getLast hne, huv]
    simp
  have hsuf : (r.to_node :: ((v ++ [r.path.getLast hne]) ++ [r.to_node])) <:+
      r.path ++ [r.to_node] := ⟨u, hsplit.symm⟩
  have hchain' := hchain.suffix hsuf
  exact chain_isPath _ _ _ hchain'

theorem row_cycle_false {edges : List Edge} {c : String} {n : Nat} {r : SGRow}
    (hacyc : Acyclic edges) (hr : r ∈ sgLevel edges c n) : r.cycle = false := by
  rcases hc : r.cycle with _ | _
  · rfl
  · exact absurd (row_cycle_isPath hr hc) (hacyc _)

theorem exists_row_of_chain {edges : List Edge} {c : String}
    (hacyc : Acyclic edges) :
    ∀ (l : List String) (b : String),
      List.Chain' (hasEdge edges) (c :: l ++ [b]) →
      ∃ n r, r ∈ sgLevel edges c n ∧ r.to_node = b := by
  intro l
  induction l using List.reverseRecOn with
  | nil =>
    intro b h
    have hab : hasEdge edges c b := by simpa using h
    obtain ⟨e, he, hfe, hte⟩ := hab
    exact ⟨0, ⟨e.from_node, e.to_node, [e.from_node], false⟩,
      mem_sgBase.mpr ⟨e, he, hfe, rfl⟩, hte⟩
  | append_singleton l' m ih =>
    intro b h
    have hshape : c :: (l' ++ [m]) ++ [b] = ((c :: l') ++ [m]) ++ [b] := by simp
    rw [hshape] at h
    obtain ⟨h1, -, h3⟩ := List.chain'_append.mp h
    have hmb : hasEdge edges m b := by
      apply h3 m _ b _
      · rw [List.getLast?_concat]
        rfl
      · rfl
    obtain ⟨n, r, hr, hto⟩ := ih m (by simpa using h1)
    have hcyc := row_cycle_false hacyc hr
    obtain ⟨e, he, hfe, hte⟩ := hmb
    refine ⟨n + 1, ⟨e.from_node, e.to_node, r.path ++ [e.from_node],
      decide (e.to_node ∈ r.path)⟩, ?_, hte⟩
    exact mem_sgStep.mpr ⟨r, hr, hcyc, e, he, by rw [hfe, hto], rfl⟩

theorem check_dag_cycle_sound {edges : List Edge} {p c : String}
    (hacyc : Acyclic edges) (h : check_dag_cycle edges p c = true) :
    IsPath edges c p := by
  obtain ⟨r, hr, hor⟩ := List.any_eq_true.mp h
  obtain ⟨n, hrn⟩ := mem_searchGraph.mp hr
  rcases Bool.or_eq_true_iff.mp hor with hcyc | hto
  · exact absurd (row_cycle_isPath hrn hcyc) (hacyc _)
  · obtain rfl := beq_iff_eq.mp hto
    exact row_isPath hrn

theorem check_dag_cycle_complete {edges : List Edge} {p c : String}
    (hacyc : Acyclic edges) (h : IsPath edges c p) :
    check_dag_cycle edges p c = true := by
  obtain ⟨l, hl⟩ := isPath_chain h
  obtain ⟨n, r, hr, hto⟩ := exists_row_of_chain hacyc l p hl
  apply List.any_eq_true.mpr
  exact ⟨r, mem_searchGraph.mpr ⟨n, hr⟩, by simp [hto]⟩

theorem acyclic_single_edge : Acyclic [⟨"a", "b", 1⟩] := by
  have hsrc : ∀ y z : String, IsPath [⟨"a", "b", 1⟩] y z → y = "a" ∧ z = "b" := by
    intro y z h
    induction h with
    | single hyz =>
      obtain ⟨e, he, hf, ht⟩ := hyz
      rcases List.mem_singleton.mp he with rfl
      exact ⟨hf.symm, ht.symm⟩
    | cons hyz _ ih =>
      obtain ⟨e, he, hf, ht⟩ := hyz
      rcases List.mem_singleton.mp he with rfl
      obtain ⟨hb, -⟩ := ih
      have hbb : ("b" : String) = "a" := by rw [← hb, ← ht]
      exact absurd hbb (by decide)
  intro x hx
  obtain ⟨h1, h2⟩ := hsrc x x hx
  rw [h1] at h2
  exact absurd h2 (by decide)

theorem path_a_b : IsPath [⟨"a", "b", 1⟩] "a" "b" :=
  .single ⟨⟨"a", "b", 1⟩, List.mem_singleton.mpr rfl, rfl, rfl⟩

/-- Claim C2: on an acyclic edges relation, `check_dag_cycle(p, c)`
returns true exactly when a directed path of length at least one leads
from `c` to `p` over the existing edges. -/
theorem check_dag_cycle_iff_path (edges : List Edge) (p c : String)
    (hacyc : Acyclic edges) :
    check_dag_cycle edges p c = true ↔ IsPath edges c p :=
  ⟨check_dag_cycle_sound hacyc, check_dag_cycle_complete hacyc⟩

/-- Witness for C2: with the single edge a → b, inserting b → a is
flagged because a path a → b exists, and the equivalence is inhabited
at that concrete input. -/
theorem check_dag_cycle_iff_path_witness :
    Acyclic [⟨"a", "b", 1⟩] ∧
      (check_dag_cycle [⟨"a", "b", 1⟩] "b" "a" = true ↔
        IsPath [⟨"a", "b", 1⟩] "a" "b") :=
  ⟨acyclic_single_edge, check_dag_cycle_iff_path _ "b" "a" acyclic_single_edge⟩

/-- Counterexample to claim C1 as stated: on the empty relation the
candidate self-loop edge a → a would create a directed cycle, yet
`check_dag_cycle("a", "a")` returns false (the CTE starts from edges
out of "a" and there are none), so the modelled insertion commits and
the resulting relation is cyclic. -/
theorem self_loop_insert_not_rejected :
    check_dag_cycle [] "a" "a" = false ∧
      insert_edge [] "a" "a" 1 = Except.ok [⟨"a", "a", 1⟩] ∧
      IsPath [⟨"a", "a", 1⟩] "a" "a" :=
  ⟨rfl, rfl, .single ⟨⟨"a", "a", 1⟩, List.mem_singleton.mpr rfl, rfl, rfl⟩⟩

/-- Claim C1 amended: for an acyclic relation and a candidate edge
p → c whose target c already reaches its source p over existing edges
(for p ≠ c this is exactly when insertion would create a cycle), the
check returns true and the insertion is rejected with CycleDetected,
leaving the relation unchanged; the fresh self-loop p = c is the one
cycle-creating insertion the check does not cover. -/
theorem cycle_creating_insert_rejected (edges : List Edge) (p c : String)
    (w : ℚ) (hacyc : Acyclic edges) (hpath : IsPath edges c p) :
    check_dag_cycle edges p c = true ∧
      insert_edge edges p c w = Except.error GraphError.CycleDetected := by
  have h := check_dag_cycle_complete hacyc hpath
  exact ⟨h, by simp [insert_edge, h]⟩

/-- Witness for the amended C1 at the single edge a → b with candidate
edge b → a. -/
theorem cycle_creating_insert_rejected_witness :
    Acyclic [⟨"a", "b", 1⟩] ∧ IsPath [⟨"a", "b", 1⟩] "a" "b" ∧
      (check_dag_cycle [⟨"a", "b", 1⟩] "b" "a" = true ∧
        insert_edge [⟨"a", "b", 1⟩] "b" "a" 1 =
          Except.error GraphError.CycleDetected) :=
  ⟨acyclic_single_edge, path_a_b,
    cycle_creating_insert_rejected _ "b" "a" 1 acyclic_single_edge path_a_b⟩

/-- Claim C3 fails on the schema: the migration defines
`check_dag_cycle` but installs no trigger, so the persisted schema
admits the direct write sequence insert node a, insert node b, insert
edge a → b, insert edge b → a (each step satisfies every declared
PRIMARY KEY / FOREIGN KEY constraint), and the resulting state
contains the directed cycle a → b → a. -/
theorem schema_admits_cycle :
    applyWrites emptyDB
        [.insertNode "a" "d1", .insertNode "b" "d2",
          .insertEdge "a" "b" 1, .insertEdge "b" "a" 1] =
      some ⟨[⟨"a", "d1"⟩, ⟨"b", "d2"⟩], [⟨"a", "b", 1⟩, ⟨"b", "a", 1⟩]⟩ ∧
      IsPath [⟨"a", "b", 1⟩, ⟨"b", "a", 1⟩] "a" "a" :=
  ⟨by decide,
    .cons ⟨⟨"a", "b", 1⟩, by simp, rfl, rfl⟩
      (.single ⟨⟨"b", "a", 1⟩, by simp, rfl, rfl⟩)⟩

/-- Counterexample to the simple-paths clause of claim C4: with edges
a → a and a → b, the CTE extends the walk a → a through node a even
though a is already on the path (the flag `e.to_node = ANY(path)` is
evaluated against the parent row's path, which does not yet contain
a), producing the row (a, b, [a, a], false) whose path is not
duplicate-free. -/
theorem nonsimple_path_enumerated :
    (⟨"a", "b", ["a", "a"], false⟩ : SGRow) ∈
        searchGraph [⟨"a", "a", 1⟩, ⟨"a", "b", 1⟩] "a" ∧
      ¬ (["a", "a"] : List String).Nodup :=
  ⟨by decide, by decide⟩

/-- Claim C4 amended: the recursive search of `check_dag_cycle`
terminates on every finite edges relation, cyclic ones included —
every node occurs at most twice on any enumerated path (the revisit
flag lags one step behind on self-loops, so enumerated paths need not
be simple), hence every CTE iteration from `2 * edges.length` on
produces no rows. -/
theorem search_graph_terminates (edges : List Edge) (c : String) (n : Nat)
    (h : 2 * edges.length ≤ n) :
    sgLevel edges c n = [] ∧
      ∀ (m : Nat) (r : SGRow), r ∈ sgLevel edges c m →
        ∀ x, List.count x r.path ≤ 2 :=
  ⟨sgLevel_eq_nil_of_le h, fun _ _ hr x => (sgLevel_inv hr).2.2.2.1 x⟩

/-- Witness for the amended C4 on an already-cyclic relation
a → b → a: the fourth iteration of the CTE is empty. -/
theorem search_graph_terminates_witness :
    2 * ([⟨"a", "b", 1⟩, ⟨"b", "a", 1⟩] : List Edge).length ≤ 4 ∧
      sgLevel [⟨"a", "b", 1⟩, ⟨"b", "a", 1⟩] "a" 4 = [] :=
  ⟨by decide, (search_graph_terminates _ "a" 4 (by decide)).1⟩

/-- Claim C5: deleting the node with id x removes exactly the edges
incident to x — an edge survives iff it was present and touches x on
neither endpoint — and a node row survives iff it was present and its
id is not x. -/
theorem delete_node_frame (s : DBState) (x : String) :
    (∀ e : Edge, e ∈ (delete_node s x).edges ↔
        e ∈ s.edges ∧ e.from_node ≠ x ∧ e.to_node ≠ x) ∧
      ∀ nr : NodeRow, nr ∈ (delete_node s x).nodes ↔ nr ∈ s.nodes ∧ nr.id ≠ x := by
  constructor
  · intro e
    simp [delete_node, List.mem_filter, not_or]
  · intro nr
    simp [delete_node, List.mem_filter]

/-- Claim C6 fails on the code: for every graph node outside the
k-cluster, `getNodeColor` paints the confirmed colour exactly when
confidence is at least the hardcoded constant 80, and the colour never
depends on the node's observed network delay. -/
theorem confirmed_threshold_is_constant (n : GraphNode)
    (h : n.in_k_cluster = false) :
    (getNodeColor n = "#0088ff" ↔ 80 ≤ n.confidence) ∧
      ∀ d : ℚ, getNodeColor ⟨n.id, n.height, n.confidence, n.in_k_cluster, d⟩ =
        getNodeColor n := by
  refine ⟨?_, fun d => rfl⟩
  rw [getNodeColor, if_neg (by simp [h])]
  constructor
  · intro hcol
    by_contra hc
    rw [if_neg hc] at hcol
    exact absurd hcol (by decide)
  · intro hc
    rw [if_pos hc]

/-- Witness for the C6 evaluation theorem at a concrete node with
confidence exactly 80 and a large delay. -/
theorem confirmed_threshold_is_constant_witness :
    ((⟨"x", 1, 80, false, 500⟩ : GraphNode).in_k_cluster = false) ∧
      ((getNodeColor ⟨"x", 1, 80, false, 500⟩ = "#0088ff" ↔
          (80 : ℚ) ≤ (⟨"x", 1, 80, false, 500⟩ : GraphNode).confidence) ∧
        ∀ d : ℚ, getNodeColor ⟨"x", 1, 80, false, d⟩ =
          getNodeColor ⟨"x", 1, 80, false, 500⟩) :=
  ⟨rfl, confirmed_threshold_is_constant ⟨"x", 1, 80, false, 500⟩ rfl⟩

/-- Claim C7: `convertToGraphData` returns one graph node per input
block in order, preserving id, height, confidence, in_k_cluster and
network_delay, and one link per (block, parent) pair, with source the
parent id and target the block id. -/
theorem convertToGraphData_nodes_links (bs : List Block) :
    (convertToGraphData bs).nodes.length = bs.length ∧
      (convertToGraphData bs).nodes =
        bs.map (fun b => ⟨b.id, b.height, b.confidence, b.in_k_cluster,
          b.network_delay⟩) ∧
      (convertToGraphData bs).links.length =
        (bs.map fun b => b.parents.length).sum ∧
      ∀ l : GraphLink, l ∈ (convertToGraphData bs).links ↔
        ∃ b ∈ bs, ∃ p ∈ b.parents, l = ⟨p, b.id⟩ := by
  refine ⟨by simp [convertToGraphData], rfl, ?_, ?_⟩
  · simp [convertToGraphData, Function.comp_def]
  · intro l
    simp only [convertToGraphData, List.mem_flatMap, List.mem_map]
    constructor
    · rintro ⟨b, hb, p, hp, rfl⟩
      exact ⟨b, hb, p, hp, rfl⟩
    · rintro ⟨b, hb, p, hp, rfl⟩
      exact ⟨b, hb, p, hp, rfl⟩

/-- The Block used in the C8 counterexample. -/
def blockA : Block := ⟨"b1", "h1", [], "t0", 1, 50, false, 10⟩

/-- A Block agreeing with `blockA` on every §3 field but not on
`hash`. -/
def blockB : Block := ⟨"b1", "h2", [], "t0", 1, 50, false, 10⟩

/-- Counterexample to claim C8: two Block values agree on all seven
fields §3 defines (id, parents, timestamp, height, confidence,
in_k_cluster, network_delay) yet differ, because the code's Block
carries the additional field `hash`. -/
theorem block_has_extra_hash_field :
    (blockA.id = blockB.id ∧ blockA.parents = blockB.parents ∧
      blockA.timestamp = blockB.timestamp ∧ blockA.height = blockB.height ∧
      blockA.confidence = blockB.confidence ∧
      blockA.in_k_cluster = blockB.in_k_cluster ∧
      blockA.network_delay = blockB.network_delay) ∧ blockA ≠ blockB :=
  ⟨⟨rfl, rfl, rfl, rfl, rfl, rfl, rfl⟩, by decide⟩

/-- Claim C8 amended: a Block consists of exactly the seven §3 fields
plus the additional `hash` field — those eight fields jointly
determine the value, with nothing further added. -/
theorem block_fields_determine (b1 b2 : Block)
    (h1 : b1.id = b2.id) (h2 : b1.hash = b2.hash)
    (h3 : b1.parents = b2.parents) (h4 : b1.timestamp = b2.timestamp)
    (h5 : b1.height = b2.height) (h6 : b1.confidence = b2.confidence)
    (h7 : b1.in_k_cluster = b2.in_k_cluster)
    (h8 : b1.network_delay = b2.network_delay) : b1 = b2 := by
  cases b1
  cases b2
  simp_all

/-- Witness for the amended C8 at `blockA`. -/
theorem block_fields_determine_witness :
    blockA = ⟨"b1", "h1", [], "t0", 1, 50, false, 10⟩ :=
  block_fields_determine _ _ rfl rfl rfl rfl rfl rfl rfl rfl

/-- Claim C9: `convertToGraphData` performs no referential check —
whenever a block lists a parent id that is no block's id, the output
contains a link whose source matches no output node's id (a dangling
link). -/
theorem dangling_link_exists (bs : List Block) (b : Block) (p : String)
    (hb : b ∈ bs) (hp : p ∈ b.parents) (hmiss : ∀ b' ∈ bs, b'.id ≠ p) :
    ∃ l ∈ (convertToGraphData bs).links,
      ∀ gn ∈ (convertToGraphData bs).nodes, gn.id ≠ l.source := by
  refine ⟨⟨p, b.id⟩, ?_, ?_⟩
  · simp only [convertToGraphData, List.mem_flatMap, List.mem_map]
    exact ⟨b, hb, p, hp, rfl⟩
  · intro gn hgn
    simp only [convertToGraphData, List.mem_map] at hgn
    obtain ⟨b', hb', rfl⟩ := hgn
    exact hmiss b' hb'

/-- The Block used in the C9 witness: it lists the parent id "g",
which is no block's id in the singleton input list. -/
def blockC : Block := ⟨"x", "hx", ["g"], "t0", 1, 50, false, 10⟩

/-- Witness for C9 at the singleton list `[blockC]`. -/
theorem dangling_link_exists_witness :
    blockC ∈ [blockC] ∧ "g" ∈ blockC.parents ∧
      (∀ b' ∈ [blockC], b'.id ≠ "g") ∧
      ∃ l ∈ (convertToGraphData [blockC]).links,
        ∀ gn ∈ (convertToGraphData [blockC]).nodes, gn.id ≠ l.source :=
  ⟨List.mem_singleton.mpr rfl, by decide, by decide,
    dangling_link_exists [blockC] blockC "g" (List.mem_singleton.mpr rfl)
      (by decide) (by decide)⟩

/-- Claim C10: for a node whose confidence lies in [0, 100],
`getNodeSize` returns 10 + confidence / 10, which lies in [10, 20] and
is monotonically non-decreasing in confidence. -/
theorem getNodeSize_bounds (n : GraphNode) (h0 : 0 ≤ n.confidence)
    (h1 : n.confidence ≤ 100) :
    getNodeSize n = 10 + n.confidence / 10 ∧
      10 ≤ getNodeSize n ∧ getNodeSize n ≤ 20 ∧
      ∀ m : GraphNode, n.confidence ≤ m.confidence →
        getNodeSize n ≤ getNodeSize m := by
  refine ⟨rfl, ?_, ?_, ?_⟩
  · have hd : (0 : ℚ) ≤ n.confidence / 10 := div_nonneg h0 (by norm_num)
    rw [getNodeSize]
    linarith
  · have hd : n.confidence / 10 ≤ 100 / 10 :=
      (div_le_div_iff_of_pos_right (by norm_num)).mpr h1
    rw [getNodeSize]
    norm_num at hd
    linarith
  · intro m hm
    rw [getNodeSize, getNodeSize]
    have hd : n.confidence / 10 ≤ m.confidence / 10 :=
      div_le_div_of_nonneg_right hm (by norm_num)
    linarith

/-- Witness for C10 at a node of confidence 50. -/
theorem getNodeSize_bounds_witness :
    ((0 : ℚ) ≤ (⟨"x", 1, 50, false, 10⟩ : GraphNode).confidence) ∧
      ((⟨"x", 1, 50, false, 10⟩ : GraphNode).confidence ≤ 100) ∧
      (getNodeSize ⟨"x", 1, 50, false, 10⟩ =
          10 + (⟨"x", 1, 50, false, 10⟩ : GraphNode).confidence / 10 ∧
        10 ≤ getNodeSize ⟨"x", 1, 50, false, 10⟩ ∧
        getNodeSize ⟨"x", 1, 50, false, 10⟩ ≤ 20 ∧
        ∀ m : GraphNode,
          (⟨"x", 1, 50, false, 10⟩ : GraphNode).confidence ≤ m.confidence →
          getNodeSize ⟨"x", 1, 50, false, 10⟩ ≤ getNodeSize m) :=
  ⟨by decide, by decide,
    getNodeSize_bounds ⟨"x", 1, 50, false, 10⟩ (by decide) (by decide)⟩

end KnightDag
